import Mathlib

/-!
# Verification of the hpc concurrency/memory primitive library

Shallow embedding, in Lean 4, of the data structures of the
`cpp-hpc-primitives` repository, together with proofs (and disproofs)
of the specification's claims about them.

Embedded components:
* `hpc::core::spsc_ring_buffer`   (src/include/hpc/core/ring_buffer.hpp)
* `hpc::core::mpmc_ring_buffer`   (src/include/hpc/core/mpmc_ring_buffer.hpp)
* `hpc::core::arena`              (src/src/arena_allocator.cpp)
* `hpc::core::fixed_pool`         (src/src/pool_allocator.cpp)
* `hpc::core::numa_pool`          (src/include/hpc/core/numa_pool.hpp)
* `hpc::ipc::shm_spsc_ring_buffer` (src/include/hpc/ipc/shm_ring_buffer.hpp)

Machine integers (`std::size_t`, `std::uint64_t`, `std::intptr_t`) are
modelled as `Nat` with explicit `% 2 ^ 64` reductions at the exact points
where the C++ arithmetic can wrap, and an explicit sign reinterpretation
where the C++ casts through a signed type.  Pointers are modelled as `Nat`
addresses with `0` playing the role of `nullptr`.
-/

namespace HpcCore

/-- `U64` bound: `std::size_t` / `std::uint64_t` arithmetic wraps at this. -/
def u64Mod : Nat := 2 ^ 64

/-- One iteration of the bit-smearing loop body `n |= n >> i` used by
`round_up_to_power_of_two` (ring_buffer.hpp lines 155-163 and
mpmc_ring_buffer.hpp lines 196-204). -/
def smearStep (s x : Nat) : Nat := x ||| (x >>> s)

/-- `round_up_to_power_of_two(n)` from ring_buffer.hpp lines 155-163
(the identical static helper also appears in mpmc_ring_buffer.hpp lines
196-204): `if (n < 2) return 2; --n; for (i = 1; i < 64; i <<= 1) n |= n >> i;
return n + 1;`.  The loop runs for `i = 1, 2, 4, 8, 16, 32`; the final
`n + 1` is `std::size_t` arithmetic, hence the `% 2 ^ 64`. -/
def roundUpToPowerOfTwo (n : Nat) : Nat :=
  if n < 2 then 2
  else
    let m1 := n - 1
    let m2 := smearStep 1 m1
    let m3 := smearStep 2 m2
    let m4 := smearStep 4 m3
    let m5 := smearStep 8 m4
    let m6 := smearStep 16 m5
    let m7 := smearStep 32 m6
    (m7 + 1) % u64Mod

/-- Specification-side rounding, written from the spec's words: capacity is
"power-of-two rounded up; minimum 2" (spec 4.6), `storage_capacity =
nextPow2(C+1)` (spec 4.5).  The least power of two that is at least
`max n 2`. -/
def nextPow2 (n : Nat) : Nat := 2 ^ Nat.clog 2 (max n 2)

theorem shiftRight_le_self (x s : Nat) : x >>> s ≤ x := by
  rw [Nat.shiftRight_eq_div_pow]
  exact Nat.div_le_self _ _

theorem smearStep_lt {x n : Nat} (h : x < 2 ^ n) (s : Nat) :
    smearStep s x < 2 ^ n :=
  Nat.or_lt_two_pow h (Nat.lt_of_le_of_lt (shiftRight_le_self x s) h)

/-- `covers L c x` says bits `(L - c, L]` of `x` are all set. -/
def covers (L c x : Nat) : Prop :=
  ∀ j, j ≤ L → L < j + c → Nat.testBit x j = true

theorem covers_step {L c x : Nat} (h : covers L c x) :
    covers L (c + c) (smearStep c x) := by
  intro j hjL hlt
  have hbit : Nat.testBit (smearStep c x) j
      = (Nat.testBit x j || Nat.testBit x (c + j)) := by
    simp [smearStep, Nat.testBit_or, Nat.testBit_shiftRight]
  rw [hbit]
  by_cases hc : L < j + c
  · rw [h j hjL hc]
    simp
  · push_neg at hc
    have h2 : Nat.testBit x (j + c) = true := h (j + c) hc (by omega)
    rw [Nat.add_comm j c] at h2
    rw [h2]
    simp

theorem testBit_log2_self {m : Nat} (hm : 1 ≤ m) :
    Nat.testBit m (Nat.log2 m) = true := by
  have hne : m ≠ 0 := by omega
  have hlo : 2 ^ Nat.log2 m ≤ m := Nat.log2_self_le hne
  have hhi : m < 2 ^ (Nat.log2 m + 1) := Nat.lt_log2_self
  have hdiv : m / 2 ^ Nat.log2 m = 1 := by
    apply Nat.div_eq_of_lt_le
    · simpa using hlo
    · calc m < 2 ^ (Nat.log2 m + 1) := hhi
        _ = 2 * 2 ^ Nat.log2 m := by ring
  rw [Nat.testBit_to_div_mod, hdiv]
  simp

/-- The unrolled smear cascade turns any `1 ≤ m < 2 ^ 64` into the all-ones
pattern `2 ^ (log2 m + 1) - 1`. -/
theorem smear_eq {m : Nat} (hm : 1 ≤ m) (hlt : m < 2 ^ 64) :
    smearStep 32 (smearStep 16 (smearStep 8 (smearStep 4
      (smearStep 2 (smearStep 1 m))))) = 2 ^ (Nat.log2 m + 1) - 1 := by
  set L := Nat.log2 m with hL
  have hmL : m < 2 ^ (L + 1) := Nat.lt_log2_self
  have hL63 : L ≤ 63 := by
    have : Nat.log2 m < 64 := (Nat.log2_lt (by omega)).2 hlt
    omega
  have hcov : covers L 64 (smearStep 32 (smearStep 16 (smearStep 8
      (smearStep 4 (smearStep 2 (smearStep 1 m)))))) := by
    have h1 : covers L 1 m := by
      intro j hj hlt1
      have : j = L := by omega
      subst this
      exact testBit_log2_self hm
    exact covers_step (covers_step (covers_step (covers_step
      (covers_step (covers_step h1)))))
  have hub : smearStep 32 (smearStep 16 (smearStep 8 (smearStep 4
      (smearStep 2 (smearStep 1 m))))) < 2 ^ (L + 1) :=
    smearStep_lt (smearStep_lt (smearStep_lt (smearStep_lt
      (smearStep_lt (smearStep_lt hmL 1) 2) 4) 8) 16) 32
  apply Nat.eq_of_testBit_eq
  intro j
  rw [Nat.testBit_two_pow_sub_one]
  by_cases hj : j < L + 1
  · rw [hcov j (by omega) (by omega)]
    simp [hj]
  · have hge : 2 ^ (L + 1) ≤ 2 ^ j := Nat.pow_le_pow_right (by omega) (by omega)
    rw [Nat.testBit_lt_two_pow (Nat.lt_of_lt_of_le hub hge)]
    simp [hj]

theorem log2_pred_le_62 {n : Nat} (h2 : 2 ≤ n) (hub : n ≤ 2 ^ 63) :
    Nat.log2 (n - 1) ≤ 62 := by
  have : Nat.log2 (n - 1) < 63 := (Nat.log2_lt (by omega)).2 (by omega)
  omega

/-- The code's rounding helper, on inputs at least 2 that fit comfortably in
`std::size_t`, produces the power of two just above `n - 1`. -/
theorem roundUpToPowerOfTwo_eq_pow {n : Nat} (h2 : 2 ≤ n) (hub : n ≤ 2 ^ 63) :
    roundUpToPowerOfTwo n = 2 ^ (Nat.log2 (n - 1) + 1) := by
  have hnotlt : ¬ n < 2 := by omega
  have hm1 : 1 ≤ n - 1 := by omega
  have hmlt : n - 1 < 2 ^ 64 := by
    have : (2 : Nat) ^ 63 < 2 ^ 64 := by norm_num
    omega
  have hsm := smear_eq hm1 hmlt
  have hL62 := log2_pred_le_62 h2 hub
  have hpow_lt : 2 ^ (Nat.log2 (n - 1) + 1) < u64Mod := by
    have : 2 ^ (Nat.log2 (n - 1) + 1) ≤ 2 ^ 63 :=
      Nat.pow_le_pow_right (by omega) (by omega)
    have h64 : (2 : Nat) ^ 63 < 2 ^ 64 := by norm_num
    unfold u64Mod
    omega
  unfold roundUpToPowerOfTwo
  rw [if_neg hnotlt]
  simp only [hsm]
  have hpos : 1 ≤ 2 ^ (Nat.log2 (n - 1) + 1) := Nat.one_le_two_pow
  rw [Nat.sub_add_cancel hpos]
  exact Nat.mod_eq_of_lt hpow_lt

theorem clog_eq_log2_pred {n : Nat} (h2 : 2 ≤ n) :
    Nat.clog 2 n = Nat.log2 (n - 1) + 1 := by
  set L := Nat.log2 (n - 1) with hL
  have hlo : 2 ^ L ≤ n - 1 := Nat.log2_self_le (by omega)
  have hhi : n - 1 < 2 ^ (L + 1) := Nat.lt_log2_self
  have hub : Nat.clog 2 n ≤ L + 1 :=
    (Nat.le_pow_iff_clog_le (by omega)).1 (by omega)
  have hlb : L < Nat.clog 2 n :=
    (Nat.pow_lt_iff_lt_clog (by omega)).1 (by omega)
  omega

/-- Refinement: the source's `round_up_to_power_of_two` computes exactly the
spec's `nextPow2` (least power of two, minimum 2) on every input that fits. -/
theorem roundUpToPowerOfTwo_eq_nextPow2 {n : Nat} (hub : n ≤ 2 ^ 63) :
    roundUpToPowerOfTwo n = nextPow2 n := by
  by_cases h2 : n < 2
  · have : roundUpToPowerOfTwo n = 2 := by
      unfold roundUpToPowerOfTwo
      rw [if_pos h2]
    rw [this]
    have hmax : max n 2 = 2 := by omega
    unfold nextPow2
    rw [hmax, Nat.clog_eq_one (by omega) (by omega)]
    norm_num
  · push_neg at h2
    have hmax : max n 2 = n := by omega
    unfold nextPow2
    rw [hmax, clog_eq_log2_pred h2, roundUpToPowerOfTwo_eq_pow h2 hub]

theorem roundUpToPowerOfTwo_ge_two {n : Nat} (hub : n ≤ 2 ^ 63) :
    2 ≤ roundUpToPowerOfTwo n := by
  rw [roundUpToPowerOfTwo_eq_nextPow2 hub]
  unfold nextPow2
  have h1 : 0 < Nat.clog 2 (max n 2) :=
    Nat.clog_pos (by omega) (le_max_right n 2)
  calc (2 : Nat) = 2 ^ 1 := by norm_num
    _ ≤ 2 ^ Nat.clog 2 (max n 2) := Nat.pow_le_pow_right (by omega) h1

theorem self_le_roundUpToPowerOfTwo {n : Nat} (hub : n ≤ 2 ^ 63) :
    n ≤ roundUpToPowerOfTwo n := by
  rw [roundUpToPowerOfTwo_eq_nextPow2 hub]
  unfold nextPow2
  calc n ≤ max n 2 := le_max_left n 2
    _ ≤ 2 ^ Nat.clog 2 (max n 2) := Nat.le_pow_clog (by omega) _

theorem roundUpToPowerOfTwo_le {n b : Nat} (hub : n ≤ 2 ^ b) (hb : b ≤ 63)
    (hb1 : 1 ≤ b) : roundUpToPowerOfTwo n ≤ 2 ^ b := by
  have hn63 : n ≤ 2 ^ 63 := le_trans hub (Nat.pow_le_pow_right (by omega) hb)
  rw [roundUpToPowerOfTwo_eq_nextPow2 hn63]
  unfold nextPow2
  apply Nat.pow_le_pow_right (by omega)
  apply (Nat.le_pow_iff_clog_le (by omega)).1
  have h2b : 2 ≤ 2 ^ b := by
    calc (2 : Nat) = 2 ^ 1 := by norm_num
      _ ≤ 2 ^ b := Nat.pow_le_pow_right (by omega) hb1
  omega

theorem roundUpToPowerOfTwo_is_pow {n : Nat} (hub : n ≤ 2 ^ 63) :
    ∃ k, roundUpToPowerOfTwo n = 2 ^ k :=
  ⟨Nat.clog 2 (max n 2), roundUpToPowerOfTwo_eq_nextPow2 hub⟩

/-! ## `spsc_ring_buffer<T>` (ring_buffer.hpp)

State: `storage_capacity_`, `mask_`, the two indices, and the slot array.
Slots are raw storage (`std::byte*`); a slot holds a constructed `T` only
between a push and the pop that destroys it, modelled by `Option`. -/

structure SpscState (α : Type) where
  storageCapacity : Nat
  mask : Nat
  head : Nat
  tail : Nat
  storage : List (Option α)
deriving DecidableEq

/-- Constructor, ring_buffer.hpp lines 31-36: `storage_capacity_ =
round_up_to_power_of_two(capacity + 1)`, `mask_ = storage_capacity_ - 1`,
both indices zero, uninitialised storage of `storage_capacity_` slots. -/
def spscNew (α : Type) (capacity : Nat) : SpscState α :=
  let n := roundUpToPowerOfTwo (capacity + 1)
  { storageCapacity := n
    mask := n - 1
    head := 0
    tail := 0
    storage := List.replicate n none }

/-- `capacity()`, line 152: `storage_capacity_ - 1`. -/
def SpscState.capacity (s : SpscState α) : Nat := s.storageCapacity - 1

/-- `next(idx)`, line 179: `(idx + 1) & mask_` (wraps the stored index). -/
def SpscState.next (s : SpscState α) (idx : Nat) : Nat := (idx + 1) &&& s.mask

/-- `distance(tail, head)`, lines 181-184:
`(tail - head) & static_cast<index_type>(-1)`.  The subtraction is
`std::size_t` arithmetic (wraps at `2 ^ 64`); the mask is the all-ones
word `2 ^ 64 - 1`, NOT `mask_`. -/
def spscDistance (tail head : Nat) : Nat :=
  ((tail + u64Mod - head % u64Mod) % u64Mod) &&& (u64Mod - 1)

/-- `try_push`, lines 48-59: full test `distance(tail, head) == capacity()`,
otherwise placement-new at slot `tail & mask_` and `tail = next(tail)`. -/
def SpscState.tryPush (s : SpscState α) (v : α) : Bool × SpscState α :=
  let tail := s.tail
  let head := s.head
  if spscDistance tail head = s.capacity then (false, s)
  else
    let pos := tail &&& s.mask
    (true, { s with storage := s.storage.set pos (some v), tail := s.next tail })

/-- `try_pop`, lines 74-86: empty test `head == tail`, otherwise move out of
slot `head & mask_`, destroy it, and `head = next(head)`. -/
def SpscState.tryPop (s : SpscState α) : Option α × SpscState α :=
  let head := s.head
  let tail := s.tail
  if head = tail then (none, s)
  else
    let pos := head &&& s.mask
    (s.storage.getD pos none,
      { s with storage := s.storage.set pos none, head := s.next head })

/-- Number of un-popped elements currently held (slots with a live `T`). -/
def SpscState.live (s : SpscState α) : Nat :=
  s.storage.countP fun o => o.isSome

/-- A single-threaded program against the queue. -/
inductive SpscOp (α : Type) where
  | push (v : α)
  | pop

/-- Run a program; returns the final state, the values accepted by
successful `try_push` calls, and the values delivered by successful
`try_pop` calls, each in order. -/
def spscRun (s : SpscState α) : List (SpscOp α) → SpscState α × List α × List α
  | [] => (s, [], [])
  | SpscOp.push v :: rest =>
    let r := s.tryPush v
    let t := spscRun r.2 rest
    (t.1, (if r.1 then [v] else []) ++ t.2.1, t.2.2)
  | SpscOp.pop :: rest =>
    let r := s.tryPop
    let t := spscRun r.2 rest
    (t.1, t.2.1, (match r.1 with | some v => [v] | none => []) ++ t.2.2)

/-- The state reached by the single-threaded trace push 10, pop, push 20 on
a queue of requested capacity 1 (`storage_capacity = 2`): the indices have
wrapped (`head = 1`, `tail = 0`) and the queue holds one live element —
its full usable capacity. -/
def spscWrapState : SpscState Nat :=
  ((((spscNew Nat 1).tryPush 10).2).tryPop.2.tryPush 20).2

/-- C1.  The claim fails on the code: with requested capacity 1
(`storage_capacity = 2`, usable capacity 1), the single-threaded trace
push 10, pop, push 20 reaches the state `head = 1`, `tail = 0` that holds
exactly `capacity()` un-popped elements — the spec's own fullness test
`(tail - head) & mask == capacity` says full — yet `try_push` accepts a
further value and mutates the state, because the source's `distance` masks
`tail - head` with `static_cast<index_type>(-1)` (the all-ones word, a
no-op) instead of `mask_`, so a wrapped `tail < head` makes the difference
a huge number that never equals `capacity()`.  Afterwards `head == tail`,
so the queue reports empty and the stored elements are lost. -/
theorem spsc_wrap_full_push_accepted_cex :
    spscWrapState.live = spscWrapState.capacity ∧
    (spscDistance spscWrapState.tail spscWrapState.head) &&& spscWrapState.mask
      = spscWrapState.capacity ∧
    (spscWrapState.tryPush 30).1 = true ∧
    (spscWrapState.tryPush 30).2 ≠ spscWrapState ∧
    (spscWrapState.tryPush 30).2.head = (spscWrapState.tryPush 30).2.tail := by
  decide

/-- The interleaving push 1, pop, push 2, push 3, pop, pop, pop. -/
def spscLossTrace : List (SpscOp Nat) :=
  [SpscOp.push 1, SpscOp.pop, SpscOp.push 2, SpscOp.push 3,
   SpscOp.pop, SpscOp.pop, SpscOp.pop]

/-- C2.  The claim fails on the code: for the single-threaded interleaving
push 1, pop, push 2, push 3, pop, pop, pop on a queue of requested
capacity 1, `try_push` accepts the values 1, 2, 3 but the successful
`try_pop` calls deliver only the value 1, and the final state has
`head == tail` so every further pop fails as well: the accepted values 2
and 3 are lost (a consequence of the wrap bug in `distance`). -/
theorem spsc_fifo_loss_cex :
    (spscRun (spscNew Nat 1) spscLossTrace).2.1 = [1, 2, 3] ∧
    (spscRun (spscNew Nat 1) spscLossTrace).2.2 = [1] ∧
    (spscRun (spscNew Nat 1) spscLossTrace).1.head
      = (spscRun (spscNew Nat 1) spscLossTrace).1.tail := by
  decide

/-! ## `mpmc_ring_buffer<T>` (mpmc_ring_buffer.hpp)

Single-threaded semantics: with one thread every `compare_exchange_weak`
on an index it just loaded succeeds, and a reloaded index is unchanged.
The only loop exit the code has in that regime is through `diff == 0`
(success) or `diff < 0` (full/empty); `diff > 0` would reload the same
index and spin forever, which the embedding signals by returning `none`
(proved unreachable in the states our theorems visit). -/

/-- `static_cast<intptr_t>(x)` for a `std::size_t` value `x < 2 ^ 64`:
two's-complement reinterpretation. -/
def toSigned64 (x : Nat) : Int :=
  if x % u64Mod < 2 ^ 63 then Int.ofNat (x % u64Mod)
  else Int.ofNat (x % u64Mod) - Int.ofNat u64Mod

/-- `intptr_t diff = static_cast<intptr_t>(a) - static_cast<intptr_t>(b)`
(mpmc_ring_buffer.hpp lines 96 and 137).  Exact whenever the C++ signed
subtraction does not overflow, which holds throughout the regimes the
theorems below consider (all counters below `2 ^ 62`). -/
def sdiff64 (a b : Nat) : Int := toSigned64 a - toSigned64 b

structure MpmcState (α : Type) where
  capacity : Nat
  mask : Nat
  head : Nat
  tail : Nat
  seq : List Nat
  storage : List (Option α)
deriving DecidableEq

/-- Constructor, mpmc_ring_buffer.hpp lines 35-45: `capacity_ =
round_up_to_power_of_two(capacity)`, `mask_ = capacity_ - 1`, cell `i`
starts with `sequence == i` and uninitialised storage. -/
def mpmcNew (α : Type) (capacity : Nat) : MpmcState α :=
  let n := roundUpToPowerOfTwo capacity
  { capacity := n
    mask := n - 1
    head := 0
    tail := 0
    seq := List.range n
    storage := List.replicate n none }

/-- `try_emplace`, lines 89-119, single-threaded (CAS succeeds):
read `seq` of cell `tail & mask_`; `diff == 0` → claim the slot, construct,
publish `seq = tail + 1`; `diff < 0` → full, return false; `diff > 0`
cannot make progress on one thread (`none`). -/
def MpmcState.tryEmplace (s : MpmcState α) (v : α) : Option (Bool × MpmcState α) :=
  let tail := s.tail
  let pos := tail &&& s.mask
  let sq := s.seq.getD pos 0
  let d := sdiff64 sq tail
  if d = 0 then
    some (true,
      { s with
        tail := (tail + 1) % u64Mod
        storage := s.storage.set pos (some v)
        seq := s.seq.set pos ((tail + 1) % u64Mod) })
  else if d < 0 then some (false, s)
  else none

/-- `try_pop`, lines 131-162, single-threaded: read `seq` of cell
`head & mask_`, compare with `head + 1`; `diff == 0` → move the value out,
destroy it, publish `seq = head + capacity_`; `diff < 0` → empty. -/
def MpmcState.tryPop (s : MpmcState α) : Option (Option α × MpmcState α) :=
  let head := s.head
  let pos := head &&& s.mask
  let sq := s.seq.getD pos 0
  let d := sdiff64 sq ((head + 1) % u64Mod)
  if d = 0 then
    some (s.storage.getD pos none,
      { s with
        head := (head + 1) % u64Mod
        storage := s.storage.set pos none
        seq := s.seq.set pos ((head + s.capacity) % u64Mod) })
  else if d < 0 then some (none, s)
  else none

/-- Push a list of values in order, threading the divergence marker. -/
def mpmcPushList (s : MpmcState α) : List α → Option (List Bool × MpmcState α)
  | [] => some ([], s)
  | v :: rest =>
    match s.tryEmplace v with
    | none => none
    | some (b, s1) =>
      match mpmcPushList s1 rest with
      | none => none
      | some (bs, s2) => some (b :: bs, s2)

theorem toSigned64_of_lt {x : Nat} (h : x < 2 ^ 63) : toSigned64 x = (x : Int) := by
  have h64 : x < u64Mod := by
    unfold u64Mod
    have : (2 : Nat) ^ 63 < 2 ^ 64 := by norm_num
    omega
  unfold toSigned64
  rw [Nat.mod_eq_of_lt h64, if_pos h]
  rfl

theorem sdiff64_of_lt {a b : Nat} (ha : a < 2 ^ 63) (hb : b < 2 ^ 63) :
    sdiff64 a b = (a : Int) - (b : Int) := by
  unfold sdiff64
  rw [toSigned64_of_lt ha, toSigned64_of_lt hb]

theorem sdiff64_self (a : Nat) : sdiff64 a a = 0 := by
  unfold sdiff64
  exact sub_self _

/-- Proof-side description of the state of a capacity-`C` MPMC queue after
the values `ws` were pushed from fresh, in order, with no pops. -/
def midState (C : Nat) (ws : List α) : MpmcState α :=
  { capacity := C
    mask := C - 1
    head := 0
    tail := ws.length
    seq := (List.range C).map fun i => if i < ws.length then i + 1 else i
    storage := (List.range C).map fun i => if i < ws.length then ws[i]? else none }

theorem mpmcNew_eq_midState (α : Type) (c : Nat) :
    mpmcNew α c = midState (roundUpToPowerOfTwo c) [] := by
  unfold mpmcNew midState
  simp only [List.length_nil, Nat.not_lt_zero, if_false]
  congr 1
  · apply List.ext_getElem?
    intro i
    rw [List.getElem?_map]
    by_cases h : i < roundUpToPowerOfTwo c
    · rw [List.getElem?_range h]
      simp
    · rw [List.getElem?_eq_none (by simpa [List.length_range] using h)]
      rfl
  · apply List.ext_getElem?
    intro i
    rw [List.getElem?_map, List.getElem?_replicate]
    by_cases h : i < roundUpToPowerOfTwo c
    · rw [List.getElem?_range h, if_pos h]
      rfl
    · rw [List.getElem?_eq_none (by simpa [List.length_range] using h), if_neg h]
      rfl

theorem seq_set_mid {C : Nat} {ws : List α} (hn : ws.length < C) (v : α) :
    (((List.range C).map fun i => if i < ws.length then i + 1 else i).set
        ws.length (ws.length + 1))
      = (List.range C).map fun i => if i < (ws ++ [v]).length then i + 1 else i := by
  apply List.ext_getElem?
  intro i
  rw [List.getElem?_set, List.getElem?_map, List.getElem?_map]
  simp only [List.length_map, List.length_range, List.length_append,
    List.length_singleton]
  by_cases hi : i = ws.length
  · subst hi
    rw [if_pos rfl, if_pos hn, List.getElem?_range hn]
    simp
  · rw [if_neg (by omega)]
    by_cases hiC : i < C
    · rw [List.getElem?_range hiC]
      simp only [Option.map_some']
      by_cases h1 : i < ws.length
      · rw [if_pos h1, if_pos (by omega)]
      · rw [if_neg h1, if_neg (by omega)]
    · rw [List.getElem?_eq_none (by simpa [List.length_range] using hiC)]
      rfl

theorem storage_set_mid {C : Nat} {ws : List α} (hn : ws.length < C) (v : α) :
    (((List.range C).map fun i => if i < ws.length then ws[i]? else none).set
        ws.length (some v))
      = (List.range C).map fun i =>
          if i < (ws ++ [v]).length then (ws ++ [v])[i]? else none := by
  apply List.ext_getElem?
  intro i
  rw [List.getElem?_set, List.getElem?_map, List.getElem?_map]
  simp only [List.length_map, List.length_range, List.length_append,
    List.length_singleton]
  by_cases hi : i = ws.length
  · subst hi
    rw [if_pos rfl, if_pos hn, List.getElem?_range hn]
    simp only [Option.map_some']
    rw [if_pos (by omega), List.getElem?_concat_length]
  · rw [if_neg (by omega)]
    by_cases hiC : i < C
    · rw [List.getElem?_range hiC]
      simp only [Option.map_some']
      by_cases h1 : i < ws.length
      · rw [if_pos h1, if_pos (by omega), List.getElem?_append_left h1]
      · rw [if_neg h1, if_neg (by omega)]
    · rw [List.getElem?_eq_none (by simpa [List.length_range] using hiC)]
      rfl

theorem tryEmplace_mid {α : Type} {k C : Nat} (hk : C = 2 ^ k) (hC : C ≤ 2 ^ 62)
    (ws : List α) (hn : ws.length < C) (v : α) :
    (midState C ws).tryEmplace v = some (true, midState C (ws ++ [v])) := by
  have hC63 : C < 2 ^ 63 := lt_of_le_of_lt hC (by norm_num)
  have h6364 : (2 : Nat) ^ 63 < 2 ^ 64 := by norm_num
  have hn64 : ws.length + 1 < u64Mod := by
    unfold u64Mod
    omega
  have hpos : ws.length &&& (C - 1) = ws.length := by
    subst hk
    rw [Nat.and_pow_two_sub_one_eq_mod]
    exact Nat.mod_eq_of_lt hn
  have hsq : ((List.range C).map fun i =>
      if i < ws.length then i + 1 else i).getD ws.length 0 = ws.length := by
    rw [List.getD_eq_getElem?_getD, List.getElem?_map, List.getElem?_range hn]
    simp
  unfold MpmcState.tryEmplace midState
  simp only [hpos, hsq, sdiff64_self]
  rw [if_pos trivial, Nat.mod_eq_of_lt hn64, seq_set_mid hn v, storage_set_mid hn v]
  simp

theorem tryEmplace_full {α : Type} {k C : Nat} (hk : C = 2 ^ k) (hC2 : 2 ≤ C)
    (hC : C ≤ 2 ^ 62) (ws : List α) (hn : ws.length = C) (v : α) :
    (midState C ws).tryEmplace v = some (false, midState C ws) := by
  have hC63 : C < 2 ^ 63 := lt_of_le_of_lt hC (by norm_num)
  have hpos : ws.length &&& (C - 1) = 0 := by
    rw [hn, hk, Nat.and_pow_two_sub_one_eq_mod]
    exact Nat.mod_self _
  have hsq : ((List.range C).map fun i =>
      if i < ws.length then i + 1 else i).getD 0 0 = 1 := by
    rw [List.getD_eq_getElem?_getD, List.getElem?_map,
      List.getElem?_range (by omega)]
    simp only [Option.map_some', Option.getD_some]
    rw [if_pos (by omega)]
  have hd : sdiff64 1 ws.length = 1 - (C : Int) := by
    rw [hn, sdiff64_of_lt (by norm_num) hC63]
    norm_num
  unfold MpmcState.tryEmplace midState
  simp only [hpos, hsq, hd]
  rw [if_neg (by omega), if_pos (by omega)]

/-- Proof-side description of the state after the first pop from the full
state `midState C ws` (`ws.length = C`). -/
def postPopState (C : Nat) (ws : List α) : MpmcState α :=
  { capacity := C
    mask := C - 1
    head := 1
    tail := ws.length
    seq := ((List.range C).map fun i => if i < ws.length then i + 1 else i).set 0 C
    storage :=
      ((List.range C).map fun i => if i < ws.length then ws[i]? else none).set 0 none }

theorem tryPop_full {α : Type} {k C : Nat} (hk : C = 2 ^ k) (hC2 : 2 ≤ C)
    (hC : C ≤ 2 ^ 62) (ws : List α) (hn : ws.length = C) :
    (midState C ws).tryPop = some (ws[0]?, postPopState C ws) := by
  have hC63 : C < 2 ^ 63 := lt_of_le_of_lt hC (by norm_num)
  have h6364 : (2 : Nat) ^ 63 < 2 ^ 64 := by norm_num
  have hsq : ((List.range C).map fun i =>
      if i < ws.length then i + 1 else i).getD 0 0 = 1 := by
    rw [List.getD_eq_getElem?_getD, List.getElem?_map,
      List.getElem?_range (by omega)]
    simp only [Option.map_some', Option.getD_some]
    rw [if_pos (by omega)]
  have hmod1 : (0 + 1) % u64Mod = 1 := by
    unfold u64Mod
    omega
  have hmodC : (0 + C) % u64Mod = C := by
    rw [Nat.zero_add]
    exact Nat.mod_eq_of_lt (by unfold u64Mod; omega)
  have hout : ((List.range C).map fun i =>
      if i < ws.length then ws[i]? else none).getD 0 none
        = ws[0]? := by
    rw [List.getD_eq_getElem?_getD, List.getElem?_map,
      List.getElem?_range (by omega)]
    simp only [Option.map_some', Option.getD_some]
    rw [if_pos (by omega)]
  unfold MpmcState.tryPop midState
  simp only [Nat.zero_and, hsq, hmod1, hmodC, sdiff64_self, hout]
  rw [if_pos trivial]
  unfold postPopState
  rfl

theorem tryEmplace_after_pop {α : Type} {k C : Nat} (hk : C = 2 ^ k) (hC2 : 2 ≤ C)
    (hC : C ≤ 2 ^ 62) (ws : List α) (hn : ws.length = C) (v : α) :
    (postPopState C ws).tryEmplace v
      = some (true,
          { capacity := C
            mask := C - 1
            head := 1
            tail := (ws.length + 1) % u64Mod
            seq := (((List.range C).map fun i =>
              if i < ws.length then i + 1 else i).set 0 C).set
                (ws.length &&& (C - 1)) ((ws.length + 1) % u64Mod)
            storage := (((List.range C).map fun i =>
              if i < ws.length then ws[i]? else none).set 0 none).set
                (ws.length &&& (C - 1)) (some v) }) := by
  have hC63 : C < 2 ^ 63 := lt_of_le_of_lt hC (by norm_num)
  have hpos : ws.length &&& (C - 1) = 0 := by
    rw [hn, hk, Nat.and_pow_two_sub_one_eq_mod]
    exact Nat.mod_self _
  have hsq : ((((List.range C).map fun i =>
      if i < ws.length then i + 1 else i).set 0 C)).getD
        (ws.length &&& (C - 1)) 0 = C := by
    rw [hpos, List.getD_eq_getElem?_getD,
      List.getElem?_set_self (by simp only [List.length_map, List.length_range]; omega)]
    rfl
  have hd0 : sdiff64 C ws.length = 0 := by
    rw [hn]
    exact sdiff64_self C
  unfold MpmcState.tryEmplace postPopState
  simp only [hsq, hd0]
  rw [if_pos trivial]

/-- Pushing a batch of values onto a partially filled queue succeeds for
every value while room remains. -/
theorem mpmcPushList_mid {α : Type} {k C : Nat} (hk : C = 2 ^ k) (hC : C ≤ 2 ^ 62) :
    ∀ (vs ws : List α), ws.length + vs.length ≤ C →
      mpmcPushList (midState C ws) vs
        = some (List.replicate vs.length true, midState C (ws ++ vs)) := by
  intro vs
  induction vs with
  | nil =>
    intro ws h
    simp [mpmcPushList]
  | cons v rest ih =>
    intro ws h
    have hn : ws.length < C := by
      simp only [List.length_cons] at h
      omega
    have hih := ih (ws ++ [v]) (by
      simp only [List.length_cons] at h
      simp only [List.length_append, List.length_singleton]
      omega)
    simp only [mpmcPushList, tryEmplace_mid hk hC ws hn v, hih]
    simp [List.append_assoc, List.replicate_succ]

/-- The literal S2 scenario of the spec, run end to end on the embedding:
requested capacity 4, push 10 20 30 40, push 50, pop, push 50, pop the
rest. -/
def mpmcS2Run : Option (List Bool × Bool × Option Nat × Bool × List (Option Nat)) := do
  let (bs, q1) ← mpmcPushList (mpmcNew Nat 4) [10, 20, 30, 40]
  let r50 ← q1.tryEmplace 50
  let (o1, q2) ← r50.2.tryPop
  let r50b ← q2.tryEmplace 50
  let (o2, q3) ← r50b.2.tryPop
  let (o3, q4) ← q3.tryPop
  let (o4, q5) ← q4.tryPop
  let (o5, _q6) ← q5.tryPop
  return (bs, r50.1, o1, r50b.1, [o2, o3, o4, o5])

/-- C3.  Single-threaded MPMC capacity behaviour: for every requested
capacity `r` (fitting in the machine regime) and every value list `vs` of
length `C = round_up_to_power_of_two r`, all `C` pushes from empty succeed,
a further push returns false and leaves the state unchanged, after one pop
(which yields the first pushed value) a push succeeds again; and the spec's
literal S2 scenario for requested capacity 4 runs exactly as stated:
pushes 10 20 30 40 succeed, push 50 fails, pop yields 10, push 50 then
succeeds, and the remaining pops yield 20, 30, 40, 50. -/
theorem mpmc_single_thread_capacity_wrap (r : Nat) (hr : r ≤ 2 ^ 62)
    (vs : List Nat) (w : Nat) (hlen : vs.length = roundUpToPowerOfTwo r) :
    (∃ sFull,
      mpmcPushList (mpmcNew Nat r) vs
          = some (List.replicate (roundUpToPowerOfTwo r) true, sFull) ∧
      sFull.tryEmplace w = some (false, sFull) ∧
      sFull.tryPop = some (vs[0]?, postPopState (roundUpToPowerOfTwo r) vs) ∧
      (∃ s2, (postPopState (roundUpToPowerOfTwo r) vs).tryEmplace w
          = some (true, s2))) ∧
    mpmcS2Run
      = some ([true, true, true, true], false, some 10, true,
          [some 20, some 30, some 40, some 50]) := by
  have hr63 : r ≤ 2 ^ 63 := le_trans hr (by norm_num)
  obtain ⟨k, hk⟩ := roundUpToPowerOfTwo_is_pow hr63
  have hC2 : 2 ≤ roundUpToPowerOfTwo r := roundUpToPowerOfTwo_ge_two hr63
  have hC : roundUpToPowerOfTwo r ≤ 2 ^ 62 :=
    roundUpToPowerOfTwo_le hr (by norm_num) (by norm_num)
  constructor
  · refine ⟨midState (roundUpToPowerOfTwo r) vs, ?_, ?_, ?_, ?_⟩
    · rw [mpmcNew_eq_midState]
      have := mpmcPushList_mid hk hC vs [] (by simpa using le_of_eq hlen)
      simpa [hlen] using this
    · exact tryEmplace_full hk hC2 hC vs hlen w
    · exact tryPop_full hk hC2 hC vs hlen
    · exact ⟨_, tryEmplace_after_pop hk hC2 hC vs hlen w⟩
  · rfl

/-- Witness for C3 at requested capacity 4 with values 10, 20, 30, 40. -/
theorem mpmc_single_thread_capacity_wrap_witness :
    (∃ sFull,
      mpmcPushList (mpmcNew Nat 4) [10, 20, 30, 40]
          = some (List.replicate (roundUpToPowerOfTwo 4) true, sFull) ∧
      sFull.tryEmplace 50 = some (false, sFull) ∧
      sFull.tryPop = some (([10, 20, 30, 40] : List Nat)[0]?,
        postPopState (roundUpToPowerOfTwo 4) [10, 20, 30, 40]) ∧
      (∃ s2, (postPopState (roundUpToPowerOfTwo 4) [10, 20, 30, 40]).tryEmplace 50
          = some (true, s2))) ∧
    mpmcS2Run
      = some ([true, true, true, true], false, some 10, true,
          [some 20, some 30, some 40, some 50]) :=
  mpmc_single_thread_capacity_wrap 4 (by norm_num) [10, 20, 30, 40] 50 (by decide)

/-! ## `shm_spsc_ring_buffer<T>` (shm_ring_buffer.hpp)

The mapped region starts with `shm_spsc_header {capacity, head, tail}`
followed by `capacity` plain `T` slots.  `shm_ring_config.create`
distinguishes the creator from an attacher. -/

structure ShmHeader where
  capacity : Nat
  head : Nat
  tail : Nat
deriving DecidableEq

/-- Effect of the `shm_spsc_ring_buffer` constructor body
(shm_ring_buffer.hpp lines 73-81) on the header that the mapped region
already holds: it stores `cfg.capacity`, `0`, `0` into the three fields.
The code performs these stores on every construction; `cfg.create` is
consulted only by `shm_region` (shm_open flags/ftruncate/unlink ownership),
never by this initialisation. -/
def shmCtorHeader (create : Bool) (cfgCapacity : Nat) (old : ShmHeader) : ShmHeader :=
  let _ := create
  let _ := old
  { capacity := cfgCapacity, head := 0, tail := 0 }

/-- C4.  The claim fails on the code: constructing in attach mode
(`cfg.create == false`) over a region whose header holds
`{capacity := 4, head := 2, tail := 3}` does NOT leave the header
unchanged — the constructor unconditionally rewrites it to
`{capacity := cfg.capacity, head := 0, tail := 0}`, clobbering the live
indices of the queue it attached to. -/
theorem shm_attach_overwrites_header_cex :
    shmCtorHeader false 4 ⟨4, 2, 3⟩ = ⟨4, 0, 0⟩ ∧
    shmCtorHeader false 4 ⟨4, 2, 3⟩ ≠ ⟨4, 2, 3⟩ := by decide

/-- In-memory state of the shared-memory SPSC ring: the header fields plus
the `T` slot array (plain objects, assigned by value). -/
structure ShmState (α : Type) where
  capacity : Nat
  head : Nat
  tail : Nat
  slots : List α
deriving DecidableEq

/-- `capacity()`, shm_ring_buffer.hpp line 57: returns `header_->capacity`. -/
def ShmState.capacityFn (s : ShmState α) : Nat := s.capacity

/-- `try_push`, lines 83-95: full iff `(tail + 1) % cap == head`; otherwise
`slots_[tail] = value; tail = (tail + 1) % cap`.  All header fields are
`std::uint64_t`, hence the inner `% 2 ^ 64`. -/
def ShmState.tryPush (s : ShmState α) (v : α) : Bool × ShmState α :=
  let cap := s.capacity
  let tail := s.tail
  let head := s.head
  if ((tail + 1) % u64Mod) % cap = head then (false, s)
  else (true, { s with slots := s.slots.set tail v,
                       tail := ((tail + 1) % u64Mod) % cap })

/-- `try_pop`, lines 97-109: empty iff `head == tail`; otherwise
`out = slots_[head]; head = (head + 1) % cap`. -/
def ShmState.tryPop [Inhabited α] (s : ShmState α) : Option α × ShmState α :=
  let cap := s.capacity
  let head := s.head
  let tail := s.tail
  if head = tail then (none, s)
  else (some (s.slots.getD head default),
    { s with head := ((head + 1) % u64Mod) % cap })

/-- Number of pushes, out of an uninterrupted sequence, that succeed before
the first failure (after a failed push with no pop the state is unchanged,
so every later push fails as well). -/
def shmPushSuccesses (s : ShmState α) : List α → Nat
  | [] => 0
  | v :: rest =>
    let r := s.tryPush v
    if r.1 then 1 + shmPushSuccesses r.2 rest else 0

/-- Free slots of the ring before the reserved-slot full condition fires,
for states with `head, tail < capacity`: the cyclic distance
`(head - tail - 1) mod capacity`, written without `%`. -/
def shmFree (s : ShmState α) : Nat :=
  if s.tail < s.head then s.head - s.tail - 1
  else s.head + s.capacity - 1 - s.tail

theorem shmFree_le {s : ShmState α} (hh : s.head < s.capacity)
    (ht : s.tail < s.capacity) : shmFree s ≤ s.capacity - 1 := by
  unfold shmFree
  split_ifs with h1 <;> omega

theorem shm_full_iff {s : ShmState α} (hcap2 : 2 ≤ s.capacity)
    (hcap64 : s.capacity ≤ 2 ^ 63) (hh : s.head < s.capacity)
    (ht : s.tail < s.capacity) :
    (((s.tail + 1) % u64Mod) % s.capacity = s.head) ↔ shmFree s = 0 := by
  have hp : (2 : Nat) ^ 63 < 2 ^ 64 := by norm_num
  have e1 : (s.tail + 1) % u64Mod = s.tail + 1 :=
    Nat.mod_eq_of_lt (by unfold u64Mod; omega)
  rw [e1]
  unfold shmFree
  by_cases hteq : s.tail + 1 = s.capacity
  · rw [hteq, Nat.mod_self]
    split_ifs with h1 <;> omega
  · rw [Nat.mod_eq_of_lt (by omega)]
    split_ifs with h1 <;> omega

theorem shm_tryPush_of_full {s : ShmState α} (v : α) (h : shmFree s = 0)
    (hcap2 : 2 ≤ s.capacity) (hcap64 : s.capacity ≤ 2 ^ 63)
    (hh : s.head < s.capacity) (ht : s.tail < s.capacity) :
    s.tryPush v = (false, s) := by
  unfold ShmState.tryPush
  rw [if_pos ((shm_full_iff hcap2 hcap64 hh ht).2 h)]

theorem shm_tryPush_of_free {s : ShmState α} (v : α) (h : shmFree s ≠ 0)
    (hcap2 : 2 ≤ s.capacity) (hcap64 : s.capacity ≤ 2 ^ 63)
    (hh : s.head < s.capacity) (ht : s.tail < s.capacity) :
    (s.tryPush v).1 = true ∧
    (s.tryPush v).2.capacity = s.capacity ∧
    (s.tryPush v).2.head = s.head ∧
    (s.tryPush v).2.tail < s.capacity ∧
    shmFree (s.tryPush v).2 = shmFree s - 1 := by
  have hp : (2 : Nat) ^ 63 < 2 ^ 64 := by norm_num
  have e1 : (s.tail + 1) % u64Mod = s.tail + 1 :=
    Nat.mod_eq_of_lt (by unfold u64Mod; omega)
  have hne := (not_iff_not.2 (shm_full_iff hcap2 hcap64 hh ht)).2 h
  unfold ShmState.tryPush
  rw [if_neg hne]
  refine ⟨rfl, rfl, rfl, ?_, ?_⟩
  · simp only [e1]
    exact Nat.mod_lt _ (by omega)
  · simp only [e1]
    unfold shmFree at h ⊢
    simp only []
    by_cases hteq : s.tail + 1 = s.capacity
    · rw [hteq, Nat.mod_self]
      split_ifs at h ⊢ <;> omega
    · rw [Nat.mod_eq_of_lt (by omega)]
      split_ifs at h ⊢ <;> omega

/-- An uninterrupted push run succeeds exactly `min (free slots) (length)`
times. -/
theorem shmPushSuccesses_eq {α : Type} :
    ∀ (vs : List α) (s : ShmState α), 2 ≤ s.capacity → s.capacity ≤ 2 ^ 63 →
      s.head < s.capacity → s.tail < s.capacity →
      shmPushSuccesses s vs = min (shmFree s) vs.length := by
  intro vs
  induction vs with
  | nil =>
    intro s _ _ _ _
    simp [shmPushSuccesses]
  | cons v rest ih =>
    intro s hcap2 hcap64 hh ht
    by_cases hf : shmFree s = 0
    · unfold shmPushSuccesses
      simp only [shm_tryPush_of_full v hf hcap2 hcap64 hh ht]
      simp [hf]
    · obtain ⟨hb, hcap, hhd, htl, hfr⟩ := shm_tryPush_of_free v hf hcap2 hcap64 hh ht
      unfold shmPushSuccesses
      simp only [hb, eq_self_iff_true, if_true]
      rw [ih (s.tryPush v).2 (by omega) (by omega) (by omega) (by omega)]
      rw [hfr, hcap] at *
      simp only [List.length_cons]
      omega

/-- C10.  A shared-memory SPSC ring whose header holds capacity `N ≥ 2`
accepts at most `N - 1` pushes without an intervening successful pop: the
`(tail+1) % N == head` test reserves one slot, so the usable capacity is
one less than the header's `capacity` field, which is exactly what
`capacity()` returns.  From the freshly created state (`head = tail = 0`)
the bound is attained: an uninterrupted run of pushes succeeds exactly
`min (N - 1) (number of pushes)` times. -/
theorem shm_usable_capacity {α : Type} (s : ShmState α) (vs : List α)
    (hcap2 : 2 ≤ s.capacity) (hcap64 : s.capacity ≤ 2 ^ 63)
    (hh : s.head < s.capacity) (ht : s.tail < s.capacity) :
    shmPushSuccesses s vs ≤ s.capacity - 1 ∧
    s.capacityFn = s.capacity ∧
    (s.head = 0 → s.tail = 0 →
      shmPushSuccesses s vs = min (s.capacity - 1) vs.length) := by
  have heq := shmPushSuccesses_eq vs s hcap2 hcap64 hh ht
  have hle := shmFree_le hh ht
  refine ⟨by omega, rfl, ?_⟩
  intro h0 t0
  rw [heq]
  unfold shmFree
  rw [h0, t0]
  simp

/-! ## `arena` (arena_allocator.cpp)

Pointers are `Nat` addresses, `0` is `nullptr`.  `std::uintptr_t`
arithmetic wraps at `2 ^ 64`. -/

/-- `align_ptr(ptr, alignment)`, arena_allocator.cpp lines 10-15:
`(addr + (alignment - 1)) & ~(alignment - 1)`.  On a 64-bit `uintptr_t`
the complement `~(alignment - 1)` is `2 ^ 64 - alignment`; the addition
wraps.  Faithful for `alignment ≥ 1` (alignment 0 is outside the
power-of-two contract). -/
def alignPtr (p alignment : Nat) : Nat :=
  ((p + (alignment - 1)) % u64Mod) &&& (u64Mod - alignment)

structure ArenaState where
  begAddr : Nat
  endAddr : Nat
  ptr : Nat
  capacityBytes : Nat
  owns : Bool
deriving DecidableEq

/-- Owning constructor, arena_allocator.cpp lines 19-26: `begin_` is the
heap block (null on failure), `end_ = begin_ ? begin_ + capacity : null`,
`ptr_ = begin_`. -/
def arenaNew (base capacityBytes : Nat) : ArenaState :=
  { begAddr := base
    endAddr := if base = 0 then 0 else base + capacityBytes
    ptr := base
    capacityBytes := capacityBytes
    owns := true }

/-- `arena::allocate(bytes, alignment)`, lines 76-85: null if `begin_` is
null; align `ptr_` up; null iff `aligned + bytes > end_`; otherwise bump
`ptr_` and return `aligned`. -/
def ArenaState.allocate (a : ArenaState) (bytes alignment : Nat) :
    Option Nat × ArenaState :=
  if a.begAddr = 0 then (none, a)
  else
    let aligned := alignPtr a.ptr alignment
    if a.endAddr < aligned + bytes then (none, a)
    else (some aligned, { a with ptr := aligned + bytes })

/-- `reset()`, lines 87-90. -/
def ArenaState.reset (a : ArenaState) : ArenaState := { a with ptr := a.begAddr }

/-- Run a sequence of `allocate(bytes, alignment)` calls; each result is
recorded together with its requested size and alignment. -/
def runAllocs (a : ArenaState) :
    List (Nat × Nat) → ArenaState × List (Option (Nat × Nat × Nat))
  | [] => (a, [])
  | (b, al) :: rest =>
    let r := a.allocate b al
    let t := runAllocs r.2 rest
    (t.1, (r.1.map fun p => (p, b, al)) :: t.2)

theorem and_mask_eq_div_mul {x k : Nat} (hx : x < 2 ^ 64) (hk : k ≤ 64) :
    x &&& (2 ^ 64 - 2 ^ k) = x / 2 ^ k * 2 ^ k := by
  have hpow : 2 ^ k * 2 ^ (64 - k) = 2 ^ 64 := by
    rw [← pow_add]
    congr 1
    omega
  have hone : 1 ≤ 2 ^ (64 - k) := Nat.one_le_two_pow
  have hm1 : 2 ^ k * (2 ^ (64 - k) - 1) + 2 ^ k = 2 ^ k * 2 ^ (64 - k) := by
    rw [← Nat.mul_succ]
    congr 1
    omega
  have hm : 2 ^ 64 - 2 ^ k = 2 ^ k * (2 ^ (64 - k) - 1) := by omega
  rw [hm]
  have hR : x / 2 ^ k * 2 ^ k = (x >>> k) <<< k := by
    rw [Nat.shiftRight_eq_div_pow, Nat.shiftLeft_eq]
  rw [hR]
  apply Nat.eq_of_testBit_eq
  intro j
  rw [Nat.testBit_and, Nat.testBit_mul_pow_two, Nat.testBit_shiftLeft,
    Nat.testBit_shiftRight, Nat.testBit_two_pow_sub_one]
  by_cases hjk : k ≤ j
  · have hadd : k + (j - k) = j := by omega
    rw [hadd]
    by_cases hj64 : j < 64
    · have h1 : decide (j ≥ k) = true := by simp [hjk]
      have h2 : decide (j - k < 64 - k) = true := by
        simp only [decide_eq_true_eq]
        omega
      rw [h1, h2]
      simp [Bool.and_comm]
    · have hxj : Nat.testBit x j = false :=
        Nat.testBit_lt_two_pow
          (lt_of_lt_of_le hx (Nat.pow_le_pow_right (by omega) (by omega)))
      rw [hxj]
      simp
  · have h1 : decide (j ≥ k) = false := by simp [hjk]
    rw [h1]
    simp

/-- `alignPtr` with a power-of-two alignment, in the no-wrap regime, is
round-up division. -/
theorem alignPtr_eq {p k : Nat} (hk : k ≤ 63) (hfit : p + 2 ^ k ≤ 2 ^ 64) :
    alignPtr p (2 ^ k) = (p + (2 ^ k - 1)) / 2 ^ k * 2 ^ k := by
  have hone : 1 ≤ 2 ^ k := Nat.one_le_two_pow
  have h1 : p + (2 ^ k - 1) < 2 ^ 64 := by omega
  unfold alignPtr u64Mod
  rw [Nat.mod_eq_of_lt h1, and_mask_eq_div_mul h1 (by omega)]

theorem alignUp_ge {x a : Nat} (ha : 1 ≤ a) : x ≤ (x + (a - 1)) / a * a := by
  have hmod : (x + (a - 1)) % a < a := Nat.mod_lt _ (by omega)
  have heq : (x + (a - 1)) / a * a = (x + (a - 1)) - (x + (a - 1)) % a := by
    have := Nat.mod_add_div (x + (a - 1)) a
    have hcomm : a * ((x + (a - 1)) / a) = (x + (a - 1)) / a * a := Nat.mul_comm _ _
    omega
  omega

theorem alignUp_mod {x a : Nat} : ((x + (a - 1)) / a * a) % a = 0 :=
  Nat.mul_mod_left _ _

/-- Well-formedness of a successfully constructed arena: non-null `begin_`,
bump pointer inside `[begin_, end_]`, and the whole buffer placed in the
lower half of the address space (no `uintptr_t` wrap is reachable). -/
def ArenaWF (a : ArenaState) : Prop :=
  0 < a.begAddr ∧ a.begAddr ≤ a.ptr ∧ a.ptr ≤ a.endAddr ∧ a.endAddr ≤ 2 ^ 63

theorem arena_allocate_step {a : ArenaState} (hwf : ArenaWF a) {b k : Nat}
    (hk : k ≤ 63) :
    ((a.allocate b (2 ^ k)).1 = none ↔ a.endAddr < alignPtr a.ptr (2 ^ k) + b) ∧
    (∀ p, (a.allocate b (2 ^ k)).1 = some p →
      p = alignPtr a.ptr (2 ^ k) ∧ p % 2 ^ k = 0 ∧ a.begAddr ≤ p ∧
      p + b ≤ a.endAddr ∧ a.ptr ≤ p ∧
      (a.allocate b (2 ^ k)).2 = { a with ptr := p + b }) ∧
    ((a.allocate b (2 ^ k)).1 = none → (a.allocate b (2 ^ k)).2 = a) := by
  obtain ⟨hb0, hbp, hpe, he⟩ := hwf
  have hone : 1 ≤ 2 ^ k := Nat.one_le_two_pow
  have h2k : (2 : Nat) ^ k ≤ 2 ^ 63 := Nat.pow_le_pow_right (by omega) hk
  have h6364 : (2 : Nat) ^ 63 + 2 ^ 63 = 2 ^ 64 := by norm_num
  have hfit : a.ptr + 2 ^ k ≤ 2 ^ 64 := by omega
  have hal := alignPtr_eq hk hfit
  have hge : a.ptr ≤ alignPtr a.ptr (2 ^ k) := by
    rw [hal]
    exact alignUp_ge hone
  have hmod : alignPtr a.ptr (2 ^ k) % 2 ^ k = 0 := by
    rw [hal]
    exact alignUp_mod
  unfold ArenaState.allocate
  rw [if_neg (by omega)]
  by_cases hov : a.endAddr < alignPtr a.ptr (2 ^ k) + b
  · rw [if_pos hov]
    refine ⟨by simp [hov], ?_, fun _ => rfl⟩
    intro p hp
    simp at hp
  · rw [if_neg hov]
    refine ⟨by simp [hov], ?_, by simp⟩
    intro p hp
    simp only [Option.some_inj] at hp
    subst hp
    exact ⟨rfl, hmod, by omega, by omega, hge, rfl⟩

/-- Non-overlap of two recorded allocation results. -/
def regionsSeparated : Option (Nat × Nat × Nat) → Option (Nat × Nat × Nat) → Prop
  | some r1, some r2 => r1.1 + r1.2.1 ≤ r2.1 ∨ r2.1 + r2.2.1 ≤ r1.1
  | _, _ => True

theorem runAllocs_props :
    ∀ (calls : List (Nat × Nat)) (a : ArenaState), ArenaWF a →
      (∀ c ∈ calls, ∃ j, j ≤ 63 ∧ c.2 = 2 ^ j) →
      ArenaWF (runAllocs a calls).1 ∧
      (runAllocs a calls).1.begAddr = a.begAddr ∧
      (runAllocs a calls).1.endAddr = a.endAddr ∧
      a.ptr ≤ (runAllocs a calls).1.ptr ∧
      (∀ e ∈ (runAllocs a calls).2, ∀ p bb al, e = some (p, bb, al) →
        a.ptr ≤ p ∧ p + bb ≤ (runAllocs a calls).1.ptr ∧ p % al = 0 ∧
        a.begAddr ≤ p ∧ p + bb ≤ a.endAddr) ∧
      List.Pairwise regionsSeparated (runAllocs a calls).2 := by
  intro calls
  induction calls with
  | nil =>
    intro a hwf _
    exact ⟨hwf, rfl, rfl, le_refl _, by simp [runAllocs], by simp [runAllocs]⟩
  | cons c rest ih =>
    intro a hwf hal
    obtain ⟨j, hj, hc2⟩ := hal c (by simp)
    obtain ⟨b, al⟩ := c
    simp only at hc2
    subst hc2
    obtain ⟨hnone, hsome, hnone2⟩ := arena_allocate_step hwf hj (b := b)
    have hrest : ∀ c ∈ rest, ∃ j, j ≤ 63 ∧ c.2 = 2 ^ j := by
      intro c hc
      exact hal c (by simp [hc])
    rcases hres : (a.allocate b (2 ^ j)).1 with _ | p
    · -- failed call: state unchanged
      have hstate := hnone2 hres
      obtain ⟨ihwf, ihbeg, ihend, ihptr, ihforall, ihpw⟩ :=
        ih (a.allocate b (2 ^ j)).2 (by rw [hstate]; exact hwf) hrest
      rw [hstate] at ihwf ihbeg ihend ihptr ihforall ihpw
      refine ⟨?_, ?_, ?_, ?_, ?_, ?_⟩
      · simpa [runAllocs, hstate] using ihwf
      · simpa [runAllocs, hstate] using ihbeg
      · simpa [runAllocs, hstate] using ihend
      · simpa [runAllocs, hstate] using ihptr
      · intro e he p bb al2 hep
        simp only [runAllocs, hres, hstate, Option.map_none', List.mem_cons] at he
        rcases he with he | he
        · subst he
          simp at hep
        · have := ihforall e he p bb al2 hep
          simpa [runAllocs, hstate] using this
      · simp only [runAllocs, hres, hstate, Option.map_none']
        exact List.Pairwise.cons (by intro e he; trivial) ihpw
    · -- successful call
      obtain ⟨hpeq, hpmod, hpbeg, hpend, hpptr, hstate⟩ := hsome p hres
      have hwf1 : ArenaWF (a.allocate b (2 ^ j)).2 := by
        rw [hstate]
        obtain ⟨h1, h2, h3, h4⟩ := hwf
        exact ⟨h1, by simp; omega, by simp; omega, by simpa using h4⟩
      obtain ⟨ihwf, ihbeg, ihend, ihptr, ihforall, ihpw⟩ :=
        ih (a.allocate b (2 ^ j)).2 hwf1 hrest
      have hptr1 : (a.allocate b (2 ^ j)).2.ptr = p + b := by rw [hstate]
      refine ⟨?_, ?_, ?_, ?_, ?_, ?_⟩
      · simpa [runAllocs] using ihwf
      · simp only [runAllocs]
        rw [ihbeg, hstate]
      · simp only [runAllocs]
        rw [ihend, hstate]
      · simp only [runAllocs]
        omega
      · intro e he q bb al2 hep
        simp only [runAllocs, hres, Option.map_some', List.mem_cons] at he
        rcases he with he | he
        · rw [he] at hep
          simp only [Option.some_inj, Prod.mk.injEq] at hep
          obtain ⟨hq, hbb, hal2⟩ := hep
          subst hq
          subst hbb
          subst hal2
          refine ⟨hpptr, ?_, hpmod, hpbeg, hpend⟩
          have hfin : p + b ≤ (runAllocs (a.allocate b (2 ^ j)).2 rest).1.ptr := by
            omega
          simpa only [runAllocs] using hfin
        · have hthis := ihforall e he q bb al2 hep
          have h1p := hthis.1
          rw [hstate] at h1p
          have h1 : p + b ≤ q := h1p
          have h2 := hthis.2.1
          have h3 : q % al2 = 0 := hthis.2.2.1
          have h4p := hthis.2.2.2.1
          rw [hstate] at h4p
          have h4 : a.begAddr ≤ q := h4p
          have h5p := hthis.2.2.2.2
          rw [hstate] at h5p
          have h5 : q + bb ≤ a.endAddr := h5p
          refine ⟨by omega, ?_, h3, h4, h5⟩
          simpa only [runAllocs] using h2
      · simp only [runAllocs, hres, Option.map_some']
        apply List.Pairwise.cons
        · intro e he
          unfold regionsSeparated
          rcases e with _ | ⟨⟨q, bb, al2⟩⟩
          · trivial
          · have hthis := ihforall (some (q, bb, al2)) he q bb al2 rfl
            have hq1 := hthis.1
            left
            show p + b ≤ q
            omega
        · exact ihpw

/-- C6.  Correctness of the bump arena: on a well-formed arena a call
`allocate(b, 2 ^ k)` returns null exactly when the aligned bump pointer
advanced by `b` would exceed `end_` (in particular `allocate(0, a)`
succeeds whenever the aligned start fits); every successful result is
aligned and lies in `[begin_, end_ - b]`; and over any call sequence with
power-of-two alignments the successful regions are pairwise
non-overlapping. -/
theorem arena_allocate_correct (a : ArenaState) (hwf : ArenaWF a)
    (b k : Nat) (hk : k ≤ 63) (calls : List (Nat × Nat))
    (hal : ∀ c ∈ calls, ∃ j, j ≤ 63 ∧ c.2 = 2 ^ j) :
    ((a.allocate b (2 ^ k)).1 = none ↔
      a.endAddr < alignPtr a.ptr (2 ^ k) + b) ∧
    (∀ p, (a.allocate b (2 ^ k)).1 = some p →
      p % 2 ^ k = 0 ∧ a.begAddr ≤ p ∧ p + b ≤ a.endAddr) ∧
    (∀ e ∈ (runAllocs a calls).2, ∀ p bb al, e = some (p, bb, al) →
      p % al = 0 ∧ a.begAddr ≤ p ∧ p + bb ≤ a.endAddr) ∧
    List.Pairwise regionsSeparated (runAllocs a calls).2 := by
  obtain ⟨hnone, hsome, _⟩ := arena_allocate_step hwf hk (b := b)
  obtain ⟨_, _, _, _, hforall, hpw⟩ := runAllocs_props calls a hwf hal
  refine ⟨hnone, ?_, ?_, hpw⟩
  · intro p hp
    obtain ⟨_, h2, h3, h4, _, _⟩ := hsome p hp
    exact ⟨h2, h3, h4⟩
  · intro e he p bb al hep
    obtain ⟨_, _, h3, h4, h5⟩ := hforall e he p bb al hep
    exact ⟨h3, h4, h5⟩

/-- Witness for C6: arena at `[4096, 5120)` (the S4 sizes): `allocate(3, 1)`
then `allocate(4, 8)` yield 4096 and 4104, aligned, in bounds, disjoint. -/
theorem arena_allocate_correct_witness :
    (((arenaNew 4096 1024).allocate 3 (2 ^ 0)).1 = none ↔
      (arenaNew 4096 1024).endAddr
        < alignPtr (arenaNew 4096 1024).ptr (2 ^ 0) + 3) ∧
    (∀ p, ((arenaNew 4096 1024).allocate 3 (2 ^ 0)).1 = some p →
      p % 2 ^ 0 = 0 ∧ (arenaNew 4096 1024).begAddr ≤ p ∧
      p + 3 ≤ (arenaNew 4096 1024).endAddr) ∧
    (∀ e ∈ (runAllocs (arenaNew 4096 1024) [(3, 1), (4, 8)]).2,
      ∀ p bb al, e = some (p, bb, al) →
        p % al = 0 ∧ (arenaNew 4096 1024).begAddr ≤ p ∧
        p + bb ≤ (arenaNew 4096 1024).endAddr) ∧
    List.Pairwise regionsSeparated
      (runAllocs (arenaNew 4096 1024) [(3, 1), (4, 8)]).2 :=
  arena_allocate_correct (arenaNew 4096 1024)
    (by refine ⟨by decide, by decide, by decide, by decide⟩)
    3 0 (by norm_num) [(3, 1), (4, 8)]
    (by
      intro c hc
      simp only [List.mem_cons, List.not_mem_nil, or_false] at hc
      rcases hc with hc | hc <;> subst hc
      · exact ⟨0, by norm_num⟩
      · exact ⟨3, by norm_num⟩)

/-! ## `fixed_pool` (pool_allocator.cpp)

Blocks are `Nat` addresses; `0` is `nullptr`.  The free list threads
through the blocks (`node* next` stored in the block); the embedding keeps
it as the list of block addresses in pop order. -/

structure FixedPoolState where
  elementSize : Nat
  elementCount : Nat
  storageBase : Nat
  freeList : List Nat
deriving DecidableEq

/-- The constructor loop (pool_allocator.cpp lines 21-25) pushes block `i`
(`storage_ + i * element_size_`) onto the free-list head for
`i = 0 .. count-1`, producing the address-descending list. -/
def buildFreeList (base es : Nat) : Nat → List Nat
  | 0 => []
  | k + 1 => (base + k * es) :: buildFreeList base es k

/-- `fixed_pool::fixed_pool(element_size, element_count)`, lines 8-26:
`element_size_ = max(element_size, sizeof(node))` (`sizeof(node)` is 8 on a
64-bit target); zero count leaves null storage and an empty free list;
otherwise one heap block of `element_size_ * element_count_` bytes (its
address is the parameter `base`) threaded onto the free list. -/
def fixedPoolNew (elementSize elementCount base : Nat) : FixedPoolState :=
  let es := if elementSize < 8 then 8 else elementSize
  if elementCount = 0 then
    { elementSize := es, elementCount := elementCount, storageBase := 0,
      freeList := [] }
  else
    { elementSize := es, elementCount := elementCount, storageBase := base,
      freeList := buildFreeList base es elementCount }

/-- `fixed_pool::allocate()`, lines 33-41: pop the free-list head, null iff
empty. -/
def FixedPoolState.allocate (p : FixedPoolState) : Option Nat × FixedPoolState :=
  match p.freeList with
  | [] => (none, p)
  | n :: rest => (some n, { p with freeList := rest })

/-- `fixed_pool::deallocate(p)`, lines 43-49: null is a no-op; otherwise
push onto the free-list head. -/
def FixedPoolState.deallocate (p : FixedPoolState) (x : Nat) : FixedPoolState :=
  if x = 0 then p else { p with freeList := x :: p.freeList }

/-- `capacity()`, pool_allocator.hpp line 21. -/
def FixedPoolState.capacity (p : FixedPoolState) : Nat := p.elementCount

/-- `k` consecutive `allocate()` calls. -/
def poolAllocRun (p : FixedPoolState) : Nat → List (Option Nat) × FixedPoolState
  | 0 => ([], p)
  | k + 1 =>
    let r := p.allocate
    let t := poolAllocRun r.2 k
    (r.1 :: t.1, t.2)

theorem buildFreeList_length (base es : Nat) :
    ∀ n, (buildFreeList base es n).length = n := by
  intro n
  induction n with
  | zero => rfl
  | succ k ih => simp [buildFreeList, ih]

theorem buildFreeList_mem_lt {base es : Nat} (hes : 1 ≤ es) :
    ∀ n, ∀ x ∈ buildFreeList base es n, x < base + n * es := by
  intro n
  induction n with
  | zero => intro x hx; simp [buildFreeList] at hx
  | succ k ih =>
    intro x hx
    simp only [buildFreeList, List.mem_cons] at hx
    rcases hx with hx | hx
    · subst hx
      have hsm : (k + 1) * es = k * es + es := Nat.succ_mul k es
      omega
    · have := ih x hx
      have hsm : (k + 1) * es = k * es + es := Nat.succ_mul k es
      omega

theorem buildFreeList_mem_ge {base es : Nat} :
    ∀ n, ∀ x ∈ buildFreeList base es n, base ≤ x := by
  intro n
  induction n with
  | zero => intro x hx; simp [buildFreeList] at hx
  | succ k ih =>
    intro x hx
    simp only [buildFreeList, List.mem_cons] at hx
    rcases hx with hx | hx
    · omega
    · exact ih x hx

theorem buildFreeList_nodup {base es : Nat} (hes : 1 ≤ es) :
    ∀ n, (buildFreeList base es n).Nodup := by
  intro n
  induction n with
  | zero => simp [buildFreeList]
  | succ k ih =>
    simp only [buildFreeList, List.nodup_cons]
    refine ⟨?_, ih⟩
    intro hmem
    have := buildFreeList_mem_lt hes k _ hmem
    omega

theorem poolAllocRun_drain :
    ∀ (k : Nat) (p : FixedPoolState), k ≤ p.freeList.length →
      (poolAllocRun p k).1 = (p.freeList.take k).map some ∧
      (poolAllocRun p k).2 = { p with freeList := p.freeList.drop k } := by
  intro k
  induction k with
  | zero =>
    intro p _
    exact ⟨rfl, rfl⟩
  | succ k ih =>
    intro p hk
    rcases hfl : p.freeList with _ | ⟨a, rest⟩
    · rw [hfl] at hk
      simp at hk
    · have halloc : p.allocate = (some a, { p with freeList := rest }) := by
        unfold FixedPoolState.allocate
        rw [hfl]
      have hk2 : k ≤ rest.length := by
        rw [hfl] at hk
        simpa using hk
      obtain ⟨ih1, ih2⟩ := ih { p with freeList := rest } hk2
      unfold poolAllocRun
      rw [halloc]
      simp only [ih1, ih2, hfl]
      exact ⟨rfl, rfl⟩

/-- C7.  FixedPool exhaustion and reuse: from a fresh pool of `N` blocks,
`N` consecutive `allocate()` calls return exactly the free list (non-null,
pairwise distinct), the `(N+1)`-th call returns null; `allocate()` returns
null if and only if the free list is empty; and after `deallocate(x)` of a
non-null block the very next `allocate()` returns exactly `x` and restores
the pool state. -/
theorem fixed_pool_exhaustion_roundtrip (es n base : Nat) (hbase : 0 < base) :
    (poolAllocRun (fixedPoolNew es n base) n).1
        = (fixedPoolNew es n base).freeList.map some ∧
    (fixedPoolNew es n base).freeList.length = n ∧
    (fixedPoolNew es n base).freeList.Nodup ∧
    (∀ x ∈ (fixedPoolNew es n base).freeList, 0 < x) ∧
    ((poolAllocRun (fixedPoolNew es n base) n).2.allocate).1 = none ∧
    (∀ q : FixedPoolState, (q.allocate).1 = none ↔ q.freeList = []) ∧
    (∀ (q : FixedPoolState) (x : Nat), x ≠ 0 →
      (q.deallocate x).allocate = (some x, q)) := by
  have hes : 1 ≤ (if es < 8 then 8 else es) := by
    split_ifs <;> omega
  have hlen : (fixedPoolNew es n base).freeList.length = n := by
    unfold fixedPoolNew
    by_cases hn : n = 0
    · simp [hn]
    · simp only [if_neg hn]
      exact buildFreeList_length base _ n
  obtain ⟨hrun1, hrun2⟩ :=
    poolAllocRun_drain n (fixedPoolNew es n base) (le_of_eq hlen.symm)
  have hnil : (fixedPoolNew es n base).freeList.drop n = [] :=
    List.drop_eq_nil_of_le (le_of_eq hlen)
  refine ⟨?_, hlen, ?_, ?_, ?_, ?_, ?_⟩
  · rw [hrun1, List.take_of_length_le (le_of_eq hlen)]
  · unfold fixedPoolNew
    by_cases hn : n = 0
    · simp [hn]
    · simp only [if_neg hn]
      exact buildFreeList_nodup hes n
  · intro x hx
    unfold fixedPoolNew at hx
    by_cases hn : n = 0
    · simp [hn] at hx
    · simp only [if_neg hn] at hx
      have := buildFreeList_mem_ge n x hx
      omega
  · rw [hrun2]
    unfold FixedPoolState.allocate
    rw [hnil]
  · intro q
    unfold FixedPoolState.allocate
    rcases hq : q.freeList with _ | ⟨a, rest⟩ <;> simp [hq]
  · intro q x hx
    unfold FixedPoolState.deallocate FixedPoolState.allocate
    rw [if_neg hx]

/-- Witness for C7: `FixedPool(sizeof(i32), 4)` at heap block 1024. -/
theorem fixed_pool_exhaustion_roundtrip_witness :
    (poolAllocRun (fixedPoolNew 4 4 1024) 4).1
        = (fixedPoolNew 4 4 1024).freeList.map some ∧
    (fixedPoolNew 4 4 1024).freeList.length = 4 ∧
    (fixedPoolNew 4 4 1024).freeList.Nodup ∧
    (∀ x ∈ (fixedPoolNew 4 4 1024).freeList, 0 < x) ∧
    ((poolAllocRun (fixedPoolNew 4 4 1024) 4).2.allocate).1 = none ∧
    (∀ q : FixedPoolState, (q.allocate).1 = none ↔ q.freeList = []) ∧
    (∀ (q : FixedPoolState) (x : Nat), x ≠ 0 →
      (q.deallocate x).allocate = (some x, q)) :=
  fixed_pool_exhaustion_roundtrip 4 4 1024 (by norm_num)

/-! ## `numa_pool<T>` (numa_pool.hpp) over the heap model

`numa_pool<T>(capacity, node)` constructs `numa_arena(capacity * sizeof(T),
node)` — whose inner `arena(size_bytes)` takes one heap block — and then
`fixed_pool(sizeof(T), capacity)`, which takes its own, second heap block
(pool_allocator.cpp line 18); the arena is used only to bias placement
(numa_pool.hpp lines 38-39).  The heap is modelled as a bump of fresh,
disjoint blocks, realising the C++ guarantee that distinct live
`operator new` regions do not overlap. -/

structure HeapModel where
  nextAddr : Nat
deriving DecidableEq

/-- One `operator new(bytes)`: a fresh block disjoint from all earlier
ones. -/
def heapAlloc (h : HeapModel) (bytes : Nat) : Nat × HeapModel :=
  (h.nextAddr, { nextAddr := h.nextAddr + bytes })

structure NumaPoolModel where
  arena : ArenaState
  pool : FixedPoolState
deriving DecidableEq

/-- `numa_pool<T>::numa_pool(capacity, preferred_node)`, numa_pool.hpp
lines 17-21: member init order is `arena_(capacity * sizeof(T), node)` then
`pool_(sizeof(T), capacity)`.  `sizeofT` stands for `sizeof(T)`. -/
def numaPoolNew (sizeofT capacity : Nat) (h : HeapModel) :
    NumaPoolModel × HeapModel :=
  let r1 := heapAlloc h (capacity * sizeofT)
  let arena := arenaNew r1.1 (capacity * sizeofT)
  let es := if sizeofT < 8 then 8 else sizeofT
  if capacity = 0 then
    ({ arena := arena, pool := fixedPoolNew sizeofT capacity 0 }, r1.2)
  else
    let r2 := heapAlloc r1.2 (es * capacity)
    ({ arena := arena, pool := fixedPoolNew sizeofT capacity r2.1 }, r2.2)

/-- C5 counterexample.  `numa_pool<u64>(4)` (so `sizeof(T) = 8`,
`capacity = 4`) built over a heap whose next block starts at 4096: the
arena's backing range is `[4096, 4128)`, but the pool's first `allocate()`
returns 4152, a block of the pool's own separate storage allocation — not
inside `[arena.data(), arena.data() + arena.capacity() - sizeof(T)]` as
the claim requires, and the heap served two backing allocations. -/
theorem numa_pool_outside_arena_cex :
    ((numaPoolNew 8 4 ⟨4096⟩).1.pool.allocate).1 = some 4152 ∧
    (numaPoolNew 8 4 ⟨4096⟩).1.arena.begAddr = 4096 ∧
    (numaPoolNew 8 4 ⟨4096⟩).1.arena.capacityBytes = 32 ∧
    ¬ ((numaPoolNew 8 4 ⟨4096⟩).1.arena.begAddr ≤ 4152 ∧
       4152 + 8 ≤ (numaPoolNew 8 4 ⟨4096⟩).1.arena.begAddr
         + (numaPoolNew 8 4 ⟨4096⟩).1.arena.capacityBytes) ∧
    (numaPoolNew 8 4 ⟨4096⟩).2.nextAddr = 4096 + 32 + 32 := by decide

/-- C5 as amended.  `numa_pool` performs a second backing allocation: the
`fixed_pool` storage is a separate heap block placed entirely outside
(above) the arena's backing bytes, and every block the pool can hand out
lies in that second block; the NUMA arena only biases placement. -/
theorem numa_pool_separate_storage (sizeofT capacity : Nat)
    (_hs : 1 ≤ sizeofT) (hc : 1 ≤ capacity) (h : HeapModel)
    (hh : 0 < h.nextAddr) :
    (numaPoolNew sizeofT capacity h).1.arena.begAddr = h.nextAddr ∧
    (numaPoolNew sizeofT capacity h).1.arena.endAddr
        = h.nextAddr + capacity * sizeofT ∧
    (numaPoolNew sizeofT capacity h).1.arena.endAddr
        ≤ (numaPoolNew sizeofT capacity h).1.pool.storageBase ∧
    (∀ x ∈ (numaPoolNew sizeofT capacity h).1.pool.freeList,
      (numaPoolNew sizeofT capacity h).1.arena.endAddr ≤ x ∧
      x < (numaPoolNew sizeofT capacity h).2.nextAddr) ∧
    (numaPoolNew sizeofT capacity h).2.nextAddr
        = h.nextAddr + capacity * sizeofT
          + (if sizeofT < 8 then 8 else sizeofT) * capacity := by
  have hc0 : capacity ≠ 0 := by omega
  have hes : 1 ≤ (if sizeofT < 8 then 8 else sizeofT) := by
    split_ifs <;> omega
  have hval : numaPoolNew sizeofT capacity h =
      ({ arena :=
          { begAddr := h.nextAddr
            endAddr := h.nextAddr + capacity * sizeofT
            ptr := h.nextAddr
            capacityBytes := capacity * sizeofT
            owns := true }
         pool :=
          { elementSize := if sizeofT < 8 then 8 else sizeofT
            elementCount := capacity
            storageBase := h.nextAddr + capacity * sizeofT
            freeList := buildFreeList (h.nextAddr + capacity * sizeofT)
              (if sizeofT < 8 then 8 else sizeofT) capacity } },
       { nextAddr := h.nextAddr + capacity * sizeofT
           + (if sizeofT < 8 then 8 else sizeofT) * capacity }) := by
    unfold numaPoolNew heapAlloc arenaNew fixedPoolNew
    simp only [if_neg hc0, if_neg (show ¬ h.nextAddr = 0 by omega)]
  rw [hval]
  refine ⟨rfl, rfl, le_refl _, ?_, rfl⟩
  intro x hx
  constructor
  · exact buildFreeList_mem_ge capacity x hx
  · have := buildFreeList_mem_lt hes capacity x hx
    have hcm : capacity * (if sizeofT < 8 then 8 else sizeofT)
        = (if sizeofT < 8 then 8 else sizeofT) * capacity := Nat.mul_comm _ _
    show x < h.nextAddr + capacity * sizeofT
      + (if sizeofT < 8 then 8 else sizeofT) * capacity
    omega

/-- Witness for the amended C5 at `sizeof(T) = 8`, capacity 4, heap block
4096. -/
theorem numa_pool_separate_storage_witness :
    (numaPoolNew 8 4 ⟨4096⟩).1.arena.begAddr = (HeapModel.mk 4096).nextAddr ∧
    (numaPoolNew 8 4 ⟨4096⟩).1.arena.endAddr
        = (HeapModel.mk 4096).nextAddr + 4 * 8 ∧
    (numaPoolNew 8 4 ⟨4096⟩).1.arena.endAddr
        ≤ (numaPoolNew 8 4 ⟨4096⟩).1.pool.storageBase ∧
    (∀ x ∈ (numaPoolNew 8 4 ⟨4096⟩).1.pool.freeList,
      (numaPoolNew 8 4 ⟨4096⟩).1.arena.endAddr ≤ x ∧
      x < (numaPoolNew 8 4 ⟨4096⟩).2.nextAddr) ∧
    (numaPoolNew 8 4 ⟨4096⟩).2.nextAddr
        = (HeapModel.mk 4096).nextAddr + 4 * 8 + (if 8 < 8 then 8 else 8) * 4 :=
  numa_pool_separate_storage 8 4 (by norm_num) (by norm_num) ⟨4096⟩ (by norm_num)

/-! ## SPSC capacity rounding (C8) -/

/-- C8.  `spsc_ring_buffer(C)` exposes `capacity() =
nextPow2(C + 1) - 1` (with `nextPow2` the spec's least power of two, minimum
2); in particular requested capacities 0 and 1 both give usable capacity 1,
and on such a queue one element can be pushed and popped back. -/
theorem spsc_capacity_rounding (c : Nat) (hc : c + 1 ≤ 2 ^ 63) :
    (spscNew Nat c).capacity = nextPow2 (c + 1) - 1 ∧
    (spscNew Nat 0).capacity = 1 ∧
    (spscNew Nat 1).capacity = 1 ∧
    (∀ v : Nat,
      ((spscNew Nat 0).tryPush v).1 = true ∧
      ((((spscNew Nat 0).tryPush v).2).tryPop).1 = some v) ∧
    (∀ v : Nat,
      ((spscNew Nat 1).tryPush v).1 = true ∧
      ((((spscNew Nat 1).tryPush v).2).tryPop).1 = some v) := by
  refine ⟨?_, by decide, by decide, ?_, ?_⟩
  · show roundUpToPowerOfTwo (c + 1) - 1 = nextPow2 (c + 1) - 1
    rw [roundUpToPowerOfTwo_eq_nextPow2 hc]
  · intro v
    constructor <;>
      simp [spscNew, SpscState.tryPush, SpscState.tryPop, spscDistance,
        SpscState.capacity, SpscState.next, roundUpToPowerOfTwo, smearStep,
        u64Mod]
  · intro v
    constructor <;>
      simp [spscNew, SpscState.tryPush, SpscState.tryPop, spscDistance,
        SpscState.capacity, SpscState.next, roundUpToPowerOfTwo, smearStep,
        u64Mod]

/-- Witness for C8 at requested capacity 8 (scenario S1's queue). -/
theorem spsc_capacity_rounding_witness :
    (spscNew Nat 8).capacity = nextPow2 (8 + 1) - 1 ∧
    (spscNew Nat 0).capacity = 1 ∧
    (spscNew Nat 1).capacity = 1 ∧
    (∀ v : Nat,
      ((spscNew Nat 0).tryPush v).1 = true ∧
      ((((spscNew Nat 0).tryPush v).2).tryPop).1 = some v) ∧
    (∀ v : Nat,
      ((spscNew Nat 1).tryPush v).1 = true ∧
      ((((spscNew Nat 1).tryPush v).2).tryPop).1 = some v) :=
  spsc_capacity_rounding 8 (by norm_num)

/-- Witness for C10: capacity-4 ring, fresh header, four pushes: exactly
three succeed. -/
theorem shm_usable_capacity_witness :
    shmPushSuccesses (ShmState.mk 4 0 0 [0, 0, 0, 0]) [1, 2, 3, 4] ≤ 4 - 1 ∧
    (ShmState.mk 4 0 0 ([0, 0, 0, 0] : List Nat)).capacityFn = 4 ∧
    ((ShmState.mk 4 0 0 ([0, 0, 0, 0] : List Nat)).head = 0 →
      (ShmState.mk 4 0 0 ([0, 0, 0, 0] : List Nat)).tail = 0 →
      shmPushSuccesses (ShmState.mk 4 0 0 [0, 0, 0, 0]) [1, 2, 3, 4]
        = min (4 - 1) ([1, 2, 3, 4] : List Nat).length) :=
  shm_usable_capacity (ShmState.mk 4 0 0 [0, 0, 0, 0]) [1, 2, 3, 4]
    (by norm_num) (by norm_num) (by norm_num) (by norm_num)

end HpcCore
